import Mathlib

/-!
Verification of the IPVS consistent-hashing scheduler module
(ip_vs_ch_core.c).

The development shallowly embeds the scheduler code: destinations and the
per-service hash bucket become Lean structures, the destination heap is a
function from pointer ids to destination records, allocation outcomes are
supplied by a boolean oracle, and every operation is a pure function on
these data.  The conhash library (conhash.c, referenced through
conhash.h but not part of the sources at hand) is modelled from the
specification of the Ring and VirtualNodeSet components; those
definitions carry a doc comment saying so.
-/

set_option maxHeartbeats 1000000

/-- The nf_inet_addr union of the kernel: the field ip holds the first
32 bits of the address (the whole address for IPv4); the field rest
stands for the remaining 96 bits of an IPv6 address, which this module
never reads. -/
structure nf_inet_addr where
  ip : Nat
  rest : Nat
  deriving DecidableEq

/-- A destination record (struct ip_vs_dest), restricted to the fields
this module reads or writes: the address union, the port, the atomic
weight, the two flag bits IP_VS_DEST_F_AVAILABLE and
IP_VS_DEST_F_OVERLOAD, and the atomic reference count. -/
structure ip_vs_dest where
  addr : nf_inet_addr
  port : Nat
  weight : Int
  available : Bool
  overloaded : Bool
  refcnt : Int
  deriving DecidableEq

/-- The heap of destination objects: destination pointers are natural
numbers, dereferenced through this map. -/
abbrev Heap := Nat → ip_vs_dest

/-- atomic_inc of the refcnt of the destination at pointer d. -/
def incRef (heap : Heap) (d : Nat) : Heap :=
  fun p => if p = d then
    { heap d with refcnt := (heap d).refcnt + 1 }
  else heap p

/-- atomic_dec of the refcnt of the destination at pointer d. -/
def decRef (heap : Heap) (d : Nat) : Heap :=
  fun p => if p = d then
    { heap d with refcnt := (heap d).refcnt - 1 }
  else heap p

/-- ntohl: byte-swap of a 32-bit value, network order to host order. -/
def ntohl (x : Nat) : Nat :=
  (x % 256) * 16777216 + (x / 256 % 256) * 65536 +
    (x / 65536 % 256) * 256 + (x / 16777216 % 256)

/-- The decimal digit characters, used to model the %u conversion of
sprintf.  The argument is always taken modulo ten by the caller. -/
def digitChar : Nat → Char
  | 0 => '0' | 1 => '1' | 2 => '2' | 3 => '3' | 4 => '4'
  | 5 => '5' | 6 => '6' | 7 => '7' | 8 => '8' | _ => '9'

/-- Little-endian digit-character list of a natural number; the first
argument is fuel, always instantiated with the number itself. -/
def natDigitsAux : Nat → Nat → List Char
  | 0, _ => []
  | _ + 1, 0 => []
  | fuel + 1, n + 1 =>
      digitChar ((n + 1) % 10) :: natDigitsAux fuel ((n + 1) / 10)

/-- Decimal rendering of a natural number, the model of the %u
conversion of sprintf. -/
def natToStr (n : Nat) : String :=
  if n = 0 then "0" else ⟨(natDigitsAux n n).reverse⟩

/-- Value of a little-endian list of decimal digit characters; the
left inverse used to prove natToStr injective. -/
def charsVal : List Char → Nat
  | [] => 0
  | c :: cs => (c.toNat - 48) + 10 * charsVal cs

theorem digitChar_toNat {k : Nat} (h : k < 10) :
    (digitChar k).toNat = 48 + k := by
  interval_cases k <;> decide

theorem digitChar_ne_dash {k : Nat} (h : k < 10) : digitChar k ≠ '-' := by
  interval_cases k <;> decide

theorem charsVal_natDigitsAux :
    ∀ fuel n, n ≤ fuel → charsVal (natDigitsAux fuel n) = n := by
  intro fuel
  induction fuel with
  | zero =>
      intro n hn
      interval_cases n
      simp [natDigitsAux, charsVal]
  | succ fuel ih =>
      intro n hn
      match n with
      | 0 => simp [natDigitsAux, charsVal]
      | m + 1 =>
          have hdiv : (m + 1) / 10 ≤ fuel := by
            have := Nat.div_lt_self (Nat.succ_pos m) (by omega : 1 < 10)
            omega
          have hmod : (m + 1) % 10 < 10 := Nat.mod_lt _ (by omega)
          simp only [natDigitsAux, charsVal, ih _ hdiv,
            digitChar_toNat hmod]
          omega

theorem charsVal_natToStr (n : Nat) :
    charsVal (natToStr n).data.reverse = n := by
  by_cases h : n = 0
  · subst h; decide
  · simp only [natToStr, h, if_false, List.reverse_reverse]
    exact charsVal_natDigitsAux n n le_rfl

theorem natToStr_inj {a b : Nat} (h : natToStr a = natToStr b) : a = b := by
  have := charsVal_natToStr a
  rw [h, charsVal_natToStr] at this
  omega

theorem natDigitsAux_ne_dash :
    ∀ fuel n, ∀ c ∈ natDigitsAux fuel n, c ≠ '-' := by
  intro fuel
  induction fuel with
  | zero => intro n c hc; simp [natDigitsAux] at hc
  | succ fuel ih =>
      intro n c hc
      match n with
      | 0 => simp [natDigitsAux] at hc
      | m + 1 =>
          simp only [natDigitsAux, List.mem_cons] at hc
          rcases hc with hc | hc
          · subst hc
            exact digitChar_ne_dash (Nat.mod_lt _ (by omega))
          · exact ih _ c hc

theorem natToStr_ne_dash (n : Nat) : ∀ c ∈ (natToStr n).data, c ≠ '-' := by
  intro c hc
  by_cases h : n = 0
  · subst h
    simp only [natToStr, if_pos rfl] at hc
    have : c = '0' := by simpa using hc
    subst this
    decide
  · simp only [natToStr, h, if_false, List.mem_reverse] at hc
    exact natDigitsAux_ne_dash n n c hc

/-!
The conhash library.  The file conhash.c is part of the repository but
not among the sources at hand; only its header is included by
ip_vs_ch_core.c.  The definitions below are therefore modelled from the
specification of the HashFunction, Ring and VirtualNodeSet components:
a deterministic string hash (kept as an explicit parameter), an ordered
collection of virtual nodes keyed by hash value with ties broken by
identity string, successor lookup with wrap-around, and per-node
generation of replica many virtual identities derived from the node
identity string and a replica index.
-/

/-- Modelled from the spec: a conhash node (struct node_s) carries the
identity string and replica count set by conhash_set_node; the dest
field is the destination pointer that ip_vs_ch_core stores in it. -/
structure node_s where
  iden : String
  replica : Nat
  dest : Option Nat
  deriving DecidableEq

/-- Modelled from the spec: the identity string of one virtual node,
a distinct string derived from the owner identity string and the
replica index. -/
def vnodeIden (iden : String) (i : Nat) : String :=
  iden ++ "-" ++ natToStr i

/-- Modelled from the spec: the list of virtual-node identity strings
a node contributes, one per replica index below the replica count. -/
def nodeIdens (n : node_s) : List String :=
  (List.range n.replica).map (vnodeIden n.iden)

/-- Modelled from the spec: one virtual node of the Ring, a pair of
hash value and identity string together with its owner node. -/
structure VirtualNode where
  hashValue : Nat
  iden : String
  owner : node_s
  deriving DecidableEq

/-- Modelled from the spec: the Ring, an ordered sequence of virtual
nodes (struct conhash_s). -/
structure conhash_s where
  ring : List VirtualNode
  deriving DecidableEq

/-- Modelled from the spec: the order of the Ring, by hash value with
ties broken by identity string. -/
def vnodeLe (a b : VirtualNode) : Bool :=
  decide (a.hashValue < b.hashValue) ||
    (a.hashValue == b.hashValue && decide (a.iden ≤ b.iden))

/-- Modelled from the spec: insertion keeping the Ring sorted. -/
def ringInsert (v : VirtualNode) : List VirtualNode → List VirtualNode
  | [] => [v]
  | w :: ws => if vnodeLe v w then v :: w :: ws else w :: ringInsert v ws

/-- Modelled from the spec: successor lookup, the first virtual node
with hash value at least the query hash, wrapping to the smallest
entry, and none exactly when the Ring is empty. -/
def lookupSuccessor (ring : List VirtualNode) (q : Nat) : Option VirtualNode :=
  match ring.find? (fun v => decide (q ≤ v.hashValue)) with
  | some v => some v
  | none => ring.head?

/-- Modelled from the spec: conhash_init yields an empty Ring. -/
def conhash_init : conhash_s := { ring := [] }

/-- Modelled from the spec: conhash_set_node stores the identity
string and the replica count into a node. -/
def conhash_set_node (n : node_s) (iden : String) (replica : Nat) : node_s :=
  { n with iden := iden, replica := replica }

/-- Modelled from the spec: the virtual node placed for replica index
i of a node, hashed independently from its identity string. -/
def mkVNode (hash : String → Nat) (n : node_s) (i : Nat) : VirtualNode :=
  { hashValue := hash (vnodeIden n.iden i), iden := vnodeIden n.iden i,
    owner := n }

/-- Modelled from the spec: conhash_add_node inserts one virtual node
per replica index of the node into the Ring. -/
def conhash_add_node (hash : String → Nat) (ch : conhash_s)
    (n : node_s) : conhash_s :=
  { ring := ((List.range n.replica).map (mkVNode hash n)).foldl
      (fun r v => ringInsert v r) ch.ring }

/-- Modelled from the spec: conhash_del_node removes, by identity
string, every virtual node the given node contributed; absent
identities are ignored. -/
def conhash_del_node (ch : conhash_s) (n : node_s) : conhash_s :=
  { ring := ch.ring.filter (fun v => !(decide (v.iden ∈ nodeIdens n))) }

/-- Modelled from the spec: conhash_lookup hashes the key string and
returns the successor virtual node owner, none iff the Ring is empty. -/
def conhash_lookup (hash : String → Nat) (ch : conhash_s)
    (key : String) : Option node_s :=
  (lookupSuccessor ch.ring (hash key)).map (fun v => v.owner)

/-!
The scheduler module itself, translated from ip_vs_ch_core.c.
-/

/-- REPLICA, the per-unit-weight virtual node count. -/
def REPLICA : Nat := 160

/-- The per-service table (struct ip_vs_ch_bucket): the running count,
the conhash Ring, and the node bookkeeping list node_head (the
node_list entries, each of which holds one node_s). -/
structure ip_vs_ch_bucket where
  count : Nat
  conhash : conhash_s
  node_head : List node_s
  deriving DecidableEq

/-- ip_vs_ch_get: renders the key string with
sprintf(str, percent-u colon percent-u, ntohl(addr.ip), sport), looks
it up in the Ring and returns the destination of the found node, NULL
when no node was found or the node has no destination.  The sport
parameter of the C function is a 16-bit value; the conversion of the
int argument at the call boundary is modelled by the reduction modulo
65536 here. -/
def ip_vs_ch_get (hash : String → Nat) (tbl : ip_vs_ch_bucket)
    (addr : nf_inet_addr) (sport : Nat) : Option Nat :=
  let str := natToStr (ntohl addr.ip) ++ ":" ++ natToStr (sport % 65536)
  (conhash_lookup hash tbl.conhash str).bind (fun node => node.dest)

/-- The node that ip_vs_ch_assign builds for destination d: dest is
stored into the node entry, and conhash_set_node receives the string
sprintf(str, percent-u, ntohl(dest.addr.ip)) and weight times REPLICA
replicas. -/
def assignNode (heap : Heap) (d : Nat) : node_s :=
  conhash_set_node { iden := "", replica := 0, dest := some d }
    (natToStr (ntohl ((heap d).addr.ip)))
    ((heap d).weight.toNat * REPLICA)

/-- The loop body of ip_vs_ch_assign over the destination list of the
service: destinations with positive weight get a node entry allocated
(the oracle alloc says whether the k-th kmalloc succeeds; on failure
the function returns -ENOMEM = -12 with the partial state built so
far), appended to node_head; the destination refcnt is incremented,
the node is set and added to the Ring, and count is incremented. -/
def assignGo (hash : String → Nat) (alloc : Nat → Bool) :
    Nat → Heap → ip_vs_ch_bucket → List Nat →
      Int × ip_vs_ch_bucket × Heap
  | _, heap, tbl, [] => (0, tbl, heap)
  | k, heap, tbl, d :: rest =>
      if 0 < (heap d).weight then
        if alloc k then
          assignGo hash alloc (k + 1) (incRef heap d)
            { tbl with
                node_head := tbl.node_head ++ [assignNode heap d],
                conhash := conhash_add_node hash tbl.conhash
                  (assignNode heap d),
                count := tbl.count + 1 }
            rest
        else (-12, tbl, heap)
      else assignGo hash alloc k heap tbl rest

/-- ip_vs_ch_assign: INIT_LIST_HEAD clears node_head, then the
destination list is traversed as in assignGo. -/
def ip_vs_ch_assign (hash : String → Nat) (alloc : Nat → Bool)
    (heap : Heap) (tbl : ip_vs_ch_bucket) (dests : List Nat) :
    Int × ip_vs_ch_bucket × Heap :=
  assignGo hash alloc 0 heap { tbl with node_head := [] } dests

/-- The loop of ip_vs_ch_flush over node_head: for each entry the
destination refcnt is decremented (when the dest pointer is not NULL)
and the node is deleted from the Ring.  The C loop frees each entry
while iterating; the iteration over the whole list is modelled
directly. -/
def flushLoop (heap : Heap) (ch : conhash_s) :
    List node_s → Heap × conhash_s
  | [] => (heap, ch)
  | n :: rest =>
      let heap' := match n.dest with
        | some p => decRef heap p
        | none => heap
      flushLoop heap' (conhash_del_node ch n) rest

/-- ip_vs_ch_flush: runs the loop, empties node_head, and leaves count
equal to zero (the final assignment tbl.count = 0 of the C code). -/
def ip_vs_ch_flush (heap : Heap) (tbl : ip_vs_ch_bucket) :
    Heap × ip_vs_ch_bucket :=
  let r := flushLoop heap tbl.conhash tbl.node_head
  (r.1, { count := 0, conhash := r.2, node_head := [] })

/-- ip_vs_ch_init_svc: allocates the table (first component -ENOMEM
and no table when that kmalloc fails), zeroes count, initializes the
Ring, and calls ip_vs_ch_assign, whose return value the C code
discards; the function then returns 0. -/
def ip_vs_ch_init_svc (hash : String → Nat) (tblAlloc : Bool)
    (alloc : Nat → Bool) (heap : Heap) (dests : List Nat) :
    Int × Option ip_vs_ch_bucket × Heap :=
  if tblAlloc then
    let r := ip_vs_ch_assign hash alloc heap
      { count := 0, conhash := conhash_init, node_head := [] } dests
    (0, some r.2.1, r.2.2)
  else (-12, none, heap)

/-- ip_vs_ch_done_svc: flushes the table, finalizes the Ring and frees
the table; only the heap survives. -/
def ip_vs_ch_done_svc (heap : Heap) (tbl : ip_vs_ch_bucket) :
    Int × Heap :=
  (0, (ip_vs_ch_flush heap tbl).1)

/-- ip_vs_ch_update_svc: flush then assign; the return value of
ip_vs_ch_assign is discarded and 0 is returned. -/
def ip_vs_ch_update_svc (hash : String → Nat) (alloc : Nat → Bool)
    (heap : Heap) (tbl : ip_vs_ch_bucket) (dests : List Nat) :
    Int × ip_vs_ch_bucket × Heap :=
  let f := ip_vs_ch_flush heap tbl
  let a := ip_vs_ch_assign hash alloc f.1 f.2 dests
  (0, a.2.1, a.2.2)

/-- is_overloaded: the IP_VS_DEST_F_OVERLOAD flag. -/
def is_overloaded (d : ip_vs_dest) : Bool := d.overloaded

/-- The acceptability filter of the scheduling loop: the destination
is AVAILABLE, has positive weight, and is not overloaded (the negated
continue condition of the C loop). -/
def acceptableDest (d : ip_vs_dest) : Bool :=
  d.available && decide (0 < d.weight) && !(is_overloaded d)

/-- The for loop of ip_vs_ch_schedule: at attempt i the candidate is
fetched with ip_vs_ch_get for index i; unacceptable or missing
candidates are skipped; the first acceptable destination is returned;
NULL after the last attempt. -/
def scheduleLoop (hash : String → Nat) (heap : Heap)
    (tbl : ip_vs_ch_bucket) (saddr : nf_inet_addr) :
    Nat → Nat → Option Nat
  | 0, _ => none
  | fuel + 1, i =>
      match ip_vs_ch_get hash tbl saddr i with
      | some d =>
          if acceptableDest (heap d) then some d
          else scheduleLoop hash heap tbl saddr fuel (i + 1)
      | none => scheduleLoop hash heap tbl saddr fuel (i + 1)

/-- ip_vs_ch_schedule: extracts the source address of the packet and
runs the retry loop for count attempts starting at index 0. -/
def ip_vs_ch_schedule (hash : String → Nat) (heap : Heap)
    (tbl : ip_vs_ch_bucket) (saddr : nf_inet_addr) : Option Nat :=
  scheduleLoop hash heap tbl saddr tbl.count 0

/-- The candidate at attempt i, with its acceptability evaluated: true
iff ip_vs_ch_get returns a destination passing the filter. -/
def accCand (hash : String → Nat) (heap : Heap) (tbl : ip_vs_ch_bucket)
    (saddr : nf_inet_addr) (i : Nat) : Bool :=
  match ip_vs_ch_get hash tbl saddr i with
  | some d => acceptableDest (heap d)
  | none => false

/-- The structural invariant of a service table: every virtual node of
the Ring is one of the identities contributed by some entry of
node_head.  It holds for every table the module builds and is what
makes a flush leave the Ring empty. -/
def WFBucket (tbl : ip_vs_ch_bucket) : Prop :=
  ∀ v ∈ tbl.conhash.ring, ∃ n ∈ tbl.node_head, v.iden ∈ nodeIdens n

instance : DecidablePred WFBucket := by
  intro tbl
  unfold WFBucket
  infer_instance

/-- The all-allocations-succeed oracle. -/
def allocAll : Nat → Bool := fun _ => true

/-!
Helper lemmas: identity strings.
-/

theorem append_dash_inj :
    ∀ (xs zs ys ws : List Char), (∀ c ∈ xs, c ≠ '-') →
      (∀ c ∈ zs, c ≠ '-') →
      xs ++ '-' :: ys = zs ++ '-' :: ws → xs = zs ∧ ys = ws := by
  intro xs
  induction xs with
  | nil =>
      intro zs ys ws _ hzs h
      cases zs with
      | nil => simpa using h
      | cons z zs =>
          simp only [List.nil_append, List.cons_append, List.cons.injEq] at h
          exact absurd h.1.symm (hzs z (List.mem_cons_self z zs))
  | cons x xs ih =>
      intro zs ys ws hxs hzs h
      cases zs with
      | nil =>
          simp only [List.cons_append, List.nil_append,
            List.cons.injEq] at h
          exact absurd h.1 (hxs x (List.mem_cons_self x xs))
      | cons z zs =>
          simp only [List.cons_append, List.cons.injEq] at h
          obtain ⟨hx, htail⟩ := h
          have := ih zs ys ws
            (fun c hc => hxs c (List.mem_cons_of_mem _ hc))
            (fun c hc => hzs c (List.mem_cons_of_mem _ hc)) htail
          exact ⟨by rw [hx, this.1], this.2⟩

theorem vnodeIden_inj {a b i j : Nat}
    (h : vnodeIden (natToStr a) i = vnodeIden (natToStr b) j) :
    a = b ∧ i = j := by
  have hdata : (natToStr a).data ++ '-' :: (natToStr i).data
      = (natToStr b).data ++ '-' :: (natToStr j).data := by
    have h2 := congrArg String.data h
    simpa [vnodeIden, String.data_append, List.append_assoc] using h2
  have := append_dash_inj _ _ _ _ (natToStr_ne_dash a)
    (natToStr_ne_dash b) hdata
  constructor
  · exact natToStr_inj (String.ext this.1)
  · exact natToStr_inj (String.ext this.2)

theorem mem_nodeIdens {n : node_s} {s : String} :
    s ∈ nodeIdens n ↔ ∃ i, i < n.replica ∧ s = vnodeIden n.iden i := by
  simp only [nodeIdens, List.mem_map, List.mem_range]
  constructor
  · rintro ⟨i, hi, rfl⟩; exact ⟨i, hi, rfl⟩
  · rintro ⟨i, hi, rfl⟩; exact ⟨i, hi, rfl⟩

/-!
Helper lemmas: Ring membership.
-/

theorem mem_ringInsert {v w : VirtualNode} :
    ∀ (r : List VirtualNode), v ∈ ringInsert w r ↔ v = w ∨ v ∈ r := by
  intro r
  induction r with
  | nil => simp [ringInsert]
  | cons x xs ih =>
      unfold ringInsert
      by_cases h : vnodeLe w x
      · simp [h]
      · rw [if_neg h]
        simp only [List.mem_cons, ih]
        tauto

theorem mem_foldl_ringInsert {v : VirtualNode} :
    ∀ (vs : List VirtualNode) (r : List VirtualNode),
      v ∈ vs.foldl (fun acc w => ringInsert w acc) r ↔ v ∈ r ∨ v ∈ vs := by
  intro vs
  induction vs with
  | nil => simp
  | cons w ws ih =>
      intro r
      simp only [List.foldl_cons, ih, mem_ringInsert, List.mem_cons]
      tauto

theorem mem_add_node {hash : String → Nat} {ch : conhash_s} {n : node_s}
    {v : VirtualNode} (h : v ∈ (conhash_add_node hash ch n).ring) :
    v ∈ ch.ring ∨ (v.owner = n ∧ v.iden ∈ nodeIdens n) := by
  simp only [conhash_add_node, mem_foldl_ringInsert] at h
  rcases h with h | h
  · exact Or.inl h
  · right
    simp only [List.mem_map, List.mem_range] at h
    obtain ⟨i, hi, rfl⟩ := h
    exact ⟨rfl, mem_nodeIdens.mpr ⟨i, hi, rfl⟩⟩

/-!
Helper lemmas: heap updates.
-/

theorem incRef_eq (heap : Heap) (d p : Nat) :
    incRef heap d p
      = { heap p with
          refcnt := (heap p).refcnt + if p = d then 1 else 0 } := by
  by_cases h : p = d
  · subst h; simp [incRef]
  · simp [incRef, h]

theorem decRef_eq (heap : Heap) (d p : Nat) :
    decRef heap d p
      = { heap p with
          refcnt := (heap p).refcnt - if p = d then 1 else 0 } := by
  by_cases h : p = d
  · subst h; simp [decRef]
  · simp [decRef, h]

theorem incRef_weight (heap : Heap) (d p : Nat) :
    (incRef heap d p).weight = (heap p).weight := by
  rw [incRef_eq]

theorem incRef_ip (heap : Heap) (d p : Nat) :
    (incRef heap d p).addr = (heap p).addr := by
  rw [incRef_eq]

/-!
Helper lemmas: flush.
-/

theorem flushLoop_ring :
    ∀ (es : List node_s) (heap : Heap) (ch : conhash_s),
      (flushLoop heap ch es).2.ring
        = ch.ring.filter
            (fun v => es.all (fun n => !(decide (v.iden ∈ nodeIdens n)))) := by
  intro es
  induction es with
  | nil => intro heap ch; simp [flushLoop]
  | cons n rest ih =>
      intro heap ch
      simp only [flushLoop, ih, conhash_del_node, List.filter_filter]
      apply List.filter_congr
      intro a _
      simp [List.all_cons, Bool.and_comm]

theorem flushLoop_heap :
    ∀ (es : List node_s) (heap : Heap) (ch : conhash_s) (p : Nat),
      (flushLoop heap ch es).1 p
        = { heap p with
            refcnt := (heap p).refcnt
              - (es.countP (fun n => n.dest == some p) : Nat) } := by
  intro es
  induction es with
  | nil => intro heap ch p; simp [flushLoop]
  | cons n rest ih =>
      intro heap ch p
      rcases hd : n.dest with _ | q
      · simp only [flushLoop, hd, ih, List.countP_cons, hd]
        simp only [show ((none : Option Nat) == some p) = false from rfl]
        simp
      · simp only [flushLoop, hd, ih, List.countP_cons, hd, decRef_eq]
        obtain ⟨a, pt, w, av, ov, rc⟩ := heap p
        by_cases hpq : q = p
        · subst hpq
          simp only [if_pos rfl, show ((some q : Option Nat) == some q)
            = true from by simp]
          simp only [ip_vs_dest.mk.injEq, and_true, true_and]
          push_cast
          omega
        · have h1 : (p = q) = False := by
            simp [eq_comm]; exact fun h => hpq h.symm
          simp only [h1, if_false,
            show ((some q : Option Nat) == some p) = false from by
              simp [hpq]]
          simp

theorem flush_count (heap : Heap) (tbl : ip_vs_ch_bucket) :
    (ip_vs_ch_flush heap tbl).2.count = 0 := rfl

theorem flush_node_head (heap : Heap) (tbl : ip_vs_ch_bucket) :
    (ip_vs_ch_flush heap tbl).2.node_head = [] := rfl

theorem flush_ring_nil_of_WF (heap : Heap) (tbl : ip_vs_ch_bucket)
    (hwf : WFBucket tbl) :
    (ip_vs_ch_flush heap tbl).2.conhash.ring = [] := by
  unfold ip_vs_ch_flush
  simp only [flushLoop_ring]
  rw [List.filter_eq_nil_iff]
  intro v hv
  obtain ⟨n, hn, hmem⟩ := hwf v hv
  simp only [Bool.not_eq_true, List.all_eq_true]
  intro hall
  have := hall n hn
  simp [hmem] at this

/-!
Helper lemmas: assign.
-/

/-- The list of node entries one run of the assign loop allocates, in
order: one entry per destination with positive weight, cut short at the
first failing allocation. -/
def addedNodes (alloc : Nat → Bool) : Nat → Heap → List Nat → List node_s
  | _, _, [] => []
  | k, heap, d :: rest =>
      if 0 < (heap d).weight then
        if alloc k then
          assignNode heap d :: addedNodes alloc (k + 1) (incRef heap d) rest
        else []
      else addedNodes alloc k heap rest

theorem assignNode_dest (heap : Heap) (d : Nat) :
    (assignNode heap d).dest = some d := rfl

theorem assignGo_node_head (hash : String → Nat) (alloc : Nat → Bool) :
    ∀ (ds : List Nat) (k : Nat) (heap : Heap) (tbl : ip_vs_ch_bucket),
      ((assignGo hash alloc k heap tbl ds).2.1).node_head
        = tbl.node_head ++ addedNodes alloc k heap ds := by
  intro ds
  induction ds with
  | nil => intro k heap tbl; simp [assignGo, addedNodes]
  | cons d rest ih =>
      intro k heap tbl
      simp only [assignGo, addedNodes]
      by_cases hw : 0 < (heap d).weight
      · rw [if_pos hw, if_pos hw]
        by_cases ha : alloc k
        · rw [if_pos ha, if_pos ha, ih]
          simp [List.append_assoc]
        · rw [if_neg ha, if_neg ha]
          simp
      · rw [if_neg hw, if_neg hw, ih]

theorem assignGo_heap (hash : String → Nat) (alloc : Nat → Bool) :
    ∀ (ds : List Nat) (k : Nat) (heap : Heap) (tbl : ip_vs_ch_bucket)
      (p : Nat),
      (assignGo hash alloc k heap tbl ds).2.2 p
        = { heap p with
            refcnt := (heap p).refcnt
              + ((addedNodes alloc k heap ds).countP
                  (fun n => n.dest == some p) : Nat) } := by
  intro ds
  induction ds with
  | nil =>
      intro k heap tbl p
      simp [assignGo, addedNodes]
  | cons d rest ih =>
      intro k heap tbl p
      simp only [assignGo, addedNodes]
      by_cases hw : 0 < (heap d).weight
      · rw [if_pos hw, if_pos hw]
        by_cases ha : alloc k
        · rw [if_pos ha, if_pos ha, ih, incRef_eq]
          simp only [List.countP_cons, assignNode_dest]
          by_cases hdp : d = p
          · subst hdp
            simp only [if_pos rfl,
              show ((some d : Option Nat) == some d) = true from by simp]
            simp only [ip_vs_dest.mk.injEq, and_true, true_and]
            push_cast
            omega
          · have h1 : ¬(p = d) := fun h => hdp h.symm
            simp only [if_neg h1,
              show ((some d : Option Nat) == some p) = false from by
                simp [hdp]]
            simp
        · rw [if_neg ha, if_neg ha]
          simp
      · rw [if_neg hw, if_neg hw, ih]

theorem assignGo_count (hash : String → Nat) :
    ∀ (ds : List Nat) (k : Nat) (heap : Heap) (tbl : ip_vs_ch_bucket),
      ((assignGo hash allocAll k heap tbl ds).2.1).count
        = tbl.count
          + (ds.filter (fun d => decide (0 < (heap d).weight))).length := by
  intro ds
  induction ds with
  | nil => intro k heap tbl; simp [assignGo]
  | cons d rest ih =>
      intro k heap tbl
      simp only [assignGo, List.filter_cons]
      by_cases hw : 0 < (heap d).weight
      · rw [if_pos hw, if_pos (show allocAll k = true from rfl), ih]
        have hcong : rest.filter
            (fun x => decide (0 < (incRef heap d x).weight))
            = rest.filter (fun x => decide (0 < (heap x).weight)) := by
          apply List.filter_congr
          intro x _
          rw [incRef_weight]
        rw [hcong, if_pos (by simpa using hw)]
        simp
        omega
      · rw [if_neg hw, ih, if_neg (by simpa using hw)]

theorem assignGo_ring_mem (hash : String → Nat) (alloc : Nat → Bool) :
    ∀ (ds : List Nat) (k : Nat) (heap : Heap) (tbl : ip_vs_ch_bucket)
      (v : VirtualNode),
      v ∈ ((assignGo hash alloc k heap tbl ds).2.1).conhash.ring →
        v ∈ tbl.conhash.ring
          ∨ ∃ d ∈ ds, 0 < (heap d).weight ∧ v.owner.dest = some d := by
  intro ds
  induction ds with
  | nil => intro k heap tbl v h; exact Or.inl h
  | cons d rest ih =>
      intro k heap tbl v h
      simp only [assignGo] at h
      by_cases hw : 0 < (heap d).weight
      · rw [if_pos hw] at h
        by_cases ha : alloc k
        · rw [if_pos ha] at h
          rcases ih _ _ _ v h with h1 | ⟨d', hd', hwd', hdest⟩
          · rcases mem_add_node h1 with h2 | ⟨howner, _⟩
            · exact Or.inl h2
            · refine Or.inr ⟨d, List.mem_cons_self d rest, hw, ?_⟩
              rw [howner, assignNode_dest]
          · refine Or.inr ⟨d', List.mem_cons_of_mem d hd', ?_, hdest⟩
            rwa [incRef_weight] at hwd'
        · rw [if_neg ha] at h
          exact Or.inl h
      · rw [if_neg hw] at h
        rcases ih _ _ _ v h with h1 | ⟨d', hd', hwd', hdest⟩
        · exact Or.inl h1
        · exact Or.inr ⟨d', List.mem_cons_of_mem d hd', hwd', hdest⟩

theorem assignGo_WF (hash : String → Nat) (alloc : Nat → Bool) :
    ∀ (ds : List Nat) (k : Nat) (heap : Heap) (tbl : ip_vs_ch_bucket),
      WFBucket tbl → WFBucket ((assignGo hash alloc k heap tbl ds).2.1) := by
  intro ds
  induction ds with
  | nil => intro k heap tbl hwf; exact hwf
  | cons d rest ih =>
      intro k heap tbl hwf
      simp only [assignGo]
      by_cases hw : 0 < (heap d).weight
      · rw [if_pos hw]
        by_cases ha : alloc k
        · rw [if_pos ha]
          apply ih
          intro v hv
          rcases mem_add_node hv with h1 | ⟨howner, hmem⟩
          · obtain ⟨n, hn, hni⟩ := hwf v h1
            exact ⟨n, List.mem_append_left _ hn, hni⟩
          · refine ⟨assignNode heap d, ?_, howner ▸ hmem⟩
            exact List.mem_append_right _ (List.mem_singleton.mpr rfl)
        · rw [if_neg ha]
          exact hwf
      · rw [if_neg hw]
        exact ih _ _ _ hwf

theorem assignNode_congr {h1 h2 : Heap} {d : Nat}
    (hip : (h1 d).addr.ip = (h2 d).addr.ip)
    (hw : (h1 d).weight = (h2 d).weight) :
    assignNode h1 d = assignNode h2 d := by
  simp [assignNode, conhash_set_node, hip, hw]

theorem assignGo_congr (hash : String → Nat) (alloc : Nat → Bool) :
    ∀ (ds : List Nat) (k : Nat) (h1 h2 : Heap) (tbl : ip_vs_ch_bucket),
      (∀ p, (h1 p).addr.ip = (h2 p).addr.ip
        ∧ (h1 p).weight = (h2 p).weight) →
      (assignGo hash alloc k h1 tbl ds).1
          = (assignGo hash alloc k h2 tbl ds).1
        ∧ (assignGo hash alloc k h1 tbl ds).2.1
          = (assignGo hash alloc k h2 tbl ds).2.1 := by
  intro ds
  induction ds with
  | nil => intro k h1 h2 tbl hagree; exact ⟨rfl, rfl⟩
  | cons d rest ih =>
      intro k h1 h2 tbl hagree
      have hnode : assignNode h2 d = assignNode h1 d :=
        assignNode_congr (hagree d).1.symm (hagree d).2.symm
      have hW : (h2 d).weight = (h1 d).weight := (hagree d).2.symm
      have hagree' : ∀ p, ((incRef h1 d) p).addr.ip
            = ((incRef h2 d) p).addr.ip
          ∧ ((incRef h1 d) p).weight = ((incRef h2 d) p).weight := by
        intro p
        rw [incRef_eq, incRef_eq]
        exact hagree p
      simp only [assignGo, hnode, hW]
      by_cases hw : 0 < (h1 d).weight
      · rw [if_pos hw, if_pos hw]
        by_cases ha : alloc k
        · rw [if_pos ha, if_pos ha]
          exact ih _ _ _ _ hagree'
        · rw [if_neg ha, if_neg ha]
          exact ⟨rfl, rfl⟩
      · rw [if_neg hw, if_neg hw]
        exact ih _ _ _ _ hagree

/-!
Helper lemmas: the scheduling loop.
-/

theorem ip_vs_ch_get_congr {hash : String → Nat}
    {t1 t2 : ip_vs_ch_bucket} (h : t1.conhash = t2.conhash)
    (saddr : nf_inet_addr) (i : Nat) :
    ip_vs_ch_get hash t1 saddr i = ip_vs_ch_get hash t2 saddr i := by
  simp [ip_vs_ch_get, h]

theorem ip_vs_ch_get_ip {hash : String → Nat} {tbl : ip_vs_ch_bucket}
    {s1 s2 : nf_inet_addr} (h : s1.ip = s2.ip) (i : Nat) :
    ip_vs_ch_get hash tbl s1 i = ip_vs_ch_get hash tbl s2 i := by
  simp [ip_vs_ch_get, h]

theorem scheduleLoop_none_iff (hash : String → Nat) (heap : Heap)
    (tbl : ip_vs_ch_bucket) (saddr : nf_inet_addr) :
    ∀ (fuel i : Nat),
      scheduleLoop hash heap tbl saddr fuel i = none
        ↔ ∀ j, i ≤ j → j < i + fuel →
            accCand hash heap tbl saddr j = false := by
  intro fuel
  induction fuel with
  | zero =>
      intro i
      simp only [scheduleLoop]
      constructor
      · intro _ j hij hlt; omega
      · intro _; trivial
  | succ fuel ih =>
      intro i
      cases hget : ip_vs_ch_get hash tbl saddr i with
      | none =>
          have hacc : accCand hash heap tbl saddr i = false := by
            simp [accCand, hget]
          simp only [scheduleLoop, hget, ih]
          constructor
          · intro h j hij hlt
            rcases Nat.eq_or_lt_of_le hij with rfl | hlt2
            · exact hacc
            · exact h j hlt2 (by omega)
          · intro h j hij hlt
            exact h j (by omega) (by omega)
      | some d =>
          cases hb : acceptableDest (heap d) with
          | true =>
              have hacc : accCand hash heap tbl saddr i = true := by
                simp [accCand, hget, hb]
              simp only [scheduleLoop, hget, hb, if_true]
              constructor
              · intro h; cases h
              · intro hall
                have := hall i le_rfl (by omega)
                rw [hacc] at this
                cases this
          | false =>
              have hacc : accCand hash heap tbl saddr i = false := by
                simp [accCand, hget, hb]
              simp only [scheduleLoop, hget, hb, Bool.false_eq_true,
                if_false, ih]
              constructor
              · intro h j hij hlt
                rcases Nat.eq_or_lt_of_le hij with rfl | hlt2
                · exact hacc
                · exact h j hlt2 (by omega)
              · intro h j hij hlt
                exact h j (by omega) (by omega)

theorem scheduleLoop_some_spec (hash : String → Nat) (heap : Heap)
    (tbl : ip_vs_ch_bucket) (saddr : nf_inet_addr) :
    ∀ (fuel i dp : Nat),
      scheduleLoop hash heap tbl saddr fuel i = some dp →
        acceptableDest (heap dp) = true
        ∧ ∃ j, i ≤ j ∧ j < i + fuel
            ∧ ip_vs_ch_get hash tbl saddr j = some dp
            ∧ ∀ k, i ≤ k → k < j →
                accCand hash heap tbl saddr k = false := by
  intro fuel
  induction fuel with
  | zero => intro i dp h; cases h
  | succ fuel ih =>
      intro i dp h
      cases hget : ip_vs_ch_get hash tbl saddr i with
      | none =>
          simp only [scheduleLoop, hget] at h
          obtain ⟨hacc, j, h1, h2, h3, h4⟩ := ih (i + 1) dp h
          refine ⟨hacc, j, by omega, by omega, h3, ?_⟩
          intro k hk1 hk2
          rcases Nat.eq_or_lt_of_le hk1 with rfl | hlt2
          · simp [accCand, hget]
          · exact h4 k hlt2 hk2
      | some d =>
          cases hb : acceptableDest (heap d) with
          | true =>
              simp only [scheduleLoop, hget] at h
              rw [if_pos hb] at h
              obtain rfl : d = dp := by cases h; rfl
              refine ⟨hb, i, le_rfl, by omega, hget, ?_⟩
              intro k hk1 hk2
              omega
          | false =>
              simp only [scheduleLoop, hget] at h
              rw [if_neg (by simp [hb])] at h
              obtain ⟨hacc, j, h1, h2, h3, h4⟩ := ih (i + 1) dp h
              refine ⟨hacc, j, by omega, by omega, h3, ?_⟩
              intro k hk1 hk2
              rcases Nat.eq_or_lt_of_le hk1 with rfl | hlt2
              · simp [accCand, hget, hb]
              · exact h4 k hlt2 hk2

theorem scheduleLoop_congr_heap (hash : String → Nat)
    (tbl : ip_vs_ch_bucket) (saddr : nf_inet_addr) {h1 h2 : Heap}
    (hag : ∀ p, (h1 p).available = (h2 p).available
      ∧ (h1 p).weight = (h2 p).weight
      ∧ (h1 p).overloaded = (h2 p).overloaded) :
    ∀ (fuel i : Nat),
      scheduleLoop hash h1 tbl saddr fuel i
        = scheduleLoop hash h2 tbl saddr fuel i := by
  intro fuel
  induction fuel with
  | zero => intro i; rfl
  | succ fuel ih =>
      intro i
      cases hget : ip_vs_ch_get hash tbl saddr i with
      | none =>
          simp only [scheduleLoop, hget]
          exact ih (i + 1)
      | some d =>
          simp only [scheduleLoop, hget]
          have hacc : acceptableDest (h1 d) = acceptableDest (h2 d) := by
            unfold acceptableDest is_overloaded
            rw [(hag d).1, (hag d).2.1, (hag d).2.2]
          rw [hacc]
          by_cases hb : acceptableDest (h2 d) = true
          · rw [if_pos hb, if_pos hb]
          · rw [if_neg hb, if_neg hb]
            exact ih (i + 1)

theorem scheduleLoop_congr_tbl (hash : String → Nat) (heap : Heap)
    {t1 t2 : ip_vs_ch_bucket} (h : t1.conhash = t2.conhash)
    (saddr : nf_inet_addr) :
    ∀ (fuel i : Nat),
      scheduleLoop hash heap t1 saddr fuel i
        = scheduleLoop hash heap t2 saddr fuel i := by
  intro fuel
  induction fuel with
  | zero => intro i; rfl
  | succ fuel ih =>
      intro i
      cases hget : ip_vs_ch_get hash t2 saddr i with
      | none =>
          simp only [scheduleLoop, ip_vs_ch_get_congr h saddr i, hget]
          exact ih (i + 1)
      | some d =>
          simp only [scheduleLoop, ip_vs_ch_get_congr h saddr i, hget]
          by_cases hb : acceptableDest (heap d) = true
          · rw [if_pos hb, if_pos hb]
          · rw [if_neg hb, if_neg hb]
            exact ih (i + 1)

/-!
Helper lemmas: composites used by the lifecycle claims.
-/

theorem conhash_s_ext {c1 c2 : conhash_s} (h : c1.ring = c2.ring) :
    c1 = c2 := by
  cases c1; cases c2; cases h; rfl

/-- The freshly cleared per-service table: zero count, empty Ring,
empty node list.  This is the state a flush leaves behind and the state
ip_vs_ch_init_svc starts from. -/
def emptyBucket : ip_vs_ch_bucket :=
  { count := 0, conhash := { ring := [] }, node_head := [] }

theorem WFBucket_emptyBucket : WFBucket emptyBucket := by
  intro v hv
  simp [emptyBucket] at hv

theorem flush_eq_empty_of_WF (heap : Heap) (tbl : ip_vs_ch_bucket)
    (hwf : WFBucket tbl) :
    (ip_vs_ch_flush heap tbl).2 = emptyBucket := by
  have h1 := flush_ring_nil_of_WF heap tbl hwf
  unfold ip_vs_ch_flush at h1 ⊢
  simp only [emptyBucket, ip_vs_ch_bucket.mk.injEq, and_true, true_and]
  exact conhash_s_ext h1

theorem assignGo_heap_fields (hash : String → Nat) (alloc : Nat → Bool)
    (ds : List Nat) (k : Nat) (heap : Heap) (tbl : ip_vs_ch_bucket)
    (p : Nat) :
    ((assignGo hash alloc k heap tbl ds).2.2 p).addr = (heap p).addr
    ∧ ((assignGo hash alloc k heap tbl ds).2.2 p).weight
        = (heap p).weight
    ∧ ((assignGo hash alloc k heap tbl ds).2.2 p).available
        = (heap p).available
    ∧ ((assignGo hash alloc k heap tbl ds).2.2 p).overloaded
        = (heap p).overloaded := by
  rw [assignGo_heap]
  exact ⟨rfl, rfl, rfl, rfl⟩

theorem flushLoop_heap_fields (es : List node_s) (heap : Heap)
    (ch : conhash_s) (p : Nat) :
    ((flushLoop heap ch es).1 p).addr = (heap p).addr
    ∧ ((flushLoop heap ch es).1 p).weight = (heap p).weight
    ∧ ((flushLoop heap ch es).1 p).available = (heap p).available
    ∧ ((flushLoop heap ch es).1 p).overloaded = (heap p).overloaded := by
  rw [flushLoop_heap]
  exact ⟨rfl, rfl, rfl, rfl⟩

theorem assignGo_nonpos (hash : String → Nat) (alloc : Nat → Bool) :
    ∀ (ds : List Nat) (k : Nat) (heap : Heap) (tbl : ip_vs_ch_bucket),
      (∀ d ∈ ds, (heap d).weight ≤ 0) →
      assignGo hash alloc k heap tbl ds = (0, tbl, heap) := by
  intro ds
  induction ds with
  | nil => intro k heap tbl _; rfl
  | cons d rest ih =>
      intro k heap tbl hw
      have hd : ¬(0 < (heap d).weight) := by
        have := hw d (List.mem_cons_self d rest)
        omega
      simp only [assignGo]
      rw [if_neg hd]
      exact ih k heap tbl (fun x hx => hw x (List.mem_cons_of_mem d hx))

theorem scheduleLoop_congr_saddr (hash : String → Nat) (heap : Heap)
    (tbl : ip_vs_ch_bucket) {s1 s2 : nf_inet_addr} (h : s1.ip = s2.ip) :
    ∀ (fuel i : Nat),
      scheduleLoop hash heap tbl s1 fuel i
        = scheduleLoop hash heap tbl s2 fuel i := by
  intro fuel
  induction fuel with
  | zero => intro i; rfl
  | succ fuel ih =>
      intro i
      cases hget : ip_vs_ch_get hash tbl s2 i with
      | none =>
          simp only [scheduleLoop, ip_vs_ch_get_ip h i, hget]
          exact ih (i + 1)
      | some d =>
          simp only [scheduleLoop, ip_vs_ch_get_ip h i, hget]
          by_cases hb : acceptableDest (heap d) = true
          · rw [if_pos hb, if_pos hb]
          · rw [if_neg hb, if_neg hb]
            exact ih (i + 1)

/-!
Concrete fixtures for counterexamples and witnesses.
-/

/-- A trivial but perfectly legal hash function for concrete runs. -/
def hash0 : String → Nat := fun _ => 0

/-- A destination record with the given 32-bit address, port and
weight, AVAILABLE and not overloaded. -/
def destW (ipv : Nat) (pt : Nat) (w : Int) : ip_vs_dest :=
  { addr := { ip := ipv, rest := 0 }, port := pt, weight := w,
    available := true, overloaded := false, refcnt := 0 }

/-- A heap in which every pointer holds one weight-one destination. -/
def heapOne : Heap := fun _ => destW 1 80 1

/-- The all-allocations-fail oracle. -/
def allocNone : Nat → Bool := fun _ => false

/-- The concrete scenario of the specification: destination 0 with
weight 1 and destination 1 with weight 3. -/
def heapW13 : Heap := fun p => if p = 0 then destW 1 80 1 else destW 2 80 3

/-!
Claim theorems.
-/

/-- Claim C1: for every service table and packet, the scheduler probes
lookup keys derived from the source address and the attempt index for
at most count attempts, skips any candidate that is missing, not
AVAILABLE, overloaded, or of non-positive weight, returns the first
acceptable destination, and returns none exactly when all attempts are
exhausted; in particular a returned destination is always AVAILABLE, of
positive weight, and not overloaded. -/
theorem schedule_first_acceptable (hash : String → Nat) (heap : Heap)
    (tbl : ip_vs_ch_bucket) (saddr : nf_inet_addr) :
    (ip_vs_ch_schedule hash heap tbl saddr = none
      ↔ ∀ j, j < tbl.count → accCand hash heap tbl saddr j = false)
    ∧ (∀ dp, ip_vs_ch_schedule hash heap tbl saddr = some dp →
        ((heap dp).available = true ∧ 0 < (heap dp).weight
          ∧ is_overloaded (heap dp) = false)
        ∧ ∃ j, j < tbl.count
            ∧ ip_vs_ch_get hash tbl saddr j = some dp
            ∧ ∀ k, k < j → accCand hash heap tbl saddr k = false) := by
  constructor
  · unfold ip_vs_ch_schedule
    rw [scheduleLoop_none_iff]
    constructor
    · intro h j hj
      exact h j (Nat.zero_le j) (by omega)
    · intro h j _ hj
      exact h j (by omega)
  · intro dp h
    obtain ⟨hacc, j, h1, h2, h3, h4⟩ :=
      scheduleLoop_some_spec hash heap tbl saddr tbl.count 0 dp h
    refine ⟨?_, j, by omega, h3, fun k hk => h4 k (Nat.zero_le k) hk⟩
    unfold acceptableDest at hacc
    simp only [Bool.and_eq_true, Bool.not_eq_true', decide_eq_true_eq]
      at hacc
    exact ⟨hacc.1.1, hacc.1.2, hacc.2⟩

/-- Claim C2 (counterexample): in the concrete scenario of two
destinations with weights 1 and 3, the count field after init is 2,
the number of positive-weight destinations, not 640: the C code
increments count once per destination, not once per virtual node. -/
theorem count_is_two_not_640 :
    ((ip_vs_ch_init_svc hash0 true allocAll heapW13 [0, 1]).2.1).map
        (fun t => t.count) = some 2
    ∧ ((ip_vs_ch_init_svc hash0 true allocAll heapW13 [0, 1]).2.1).map
        (fun t => t.count) ≠ some 640 := by
  constructor
  · decide
  · decide

/-- Claim C2 (amended): after init or update, the count field equals
the number of destinations with positive weight (not the number of
virtual nodes in the Ring); in the concrete scenario of weights 1 and
3 it equals 2. -/
theorem count_eq_num_positive_weight_dests (hash : String → Nat)
    (heap : Heap) (dests : List Nat) (tbl : ip_vs_ch_bucket) :
    ((ip_vs_ch_init_svc hash true allocAll heap dests).2.1).map
        (fun t => t.count)
      = some ((dests.filter
          (fun d => decide (0 < (heap d).weight))).length)
    ∧ (ip_vs_ch_update_svc hash allocAll heap tbl dests).2.1.count
      = (dests.filter (fun d => decide (0 < (heap d).weight))).length := by
  constructor
  · simp only [ip_vs_ch_init_svc, if_pos, ip_vs_ch_assign, Option.map]
    rw [assignGo_count]
    simp
  · show (ip_vs_ch_assign hash allocAll (ip_vs_ch_flush heap tbl).1
      (ip_vs_ch_flush heap tbl).2 dests).2.1.count = _
    unfold ip_vs_ch_assign
    rw [assignGo_count]
    have hcong : dests.filter
        (fun d => decide (0 < ((ip_vs_ch_flush heap tbl).1 d).weight))
        = dests.filter (fun d => decide (0 < (heap d).weight)) := by
      apply List.filter_congr
      intro x _
      unfold ip_vs_ch_flush
      rw [(flushLoop_heap_fields tbl.node_head heap tbl.conhash x).2.1]
    rw [hcong]
    simp [flush_count]

/-- Claim C3: evaluation of the embedded code at a failing node
allocation: with one positive-weight destination and every kmalloc of
a node entry failing, ip_vs_ch_assign computes -ENOMEM, yet both
ip_vs_ch_init_svc and ip_vs_ch_update_svc discard that value and
report 0 (success) to their caller. -/
theorem alloc_failure_reported_as_success :
    (ip_vs_ch_assign hash0 allocNone heapOne emptyBucket [0]).1 = -12
    ∧ (ip_vs_ch_init_svc hash0 true allocNone heapOne [0]).1 = 0
    ∧ (ip_vs_ch_update_svc hash0 allocNone heapOne emptyBucket [0]).1
        = 0 := by
  refine ⟨by decide, by decide, by decide⟩

/-- Two destinations sharing the 32-bit address but differing in port. -/
def heapSameIp : Heap :=
  fun p => if p = 0 then destW 5 80 1 else destW 5 81 1

/-- Two destinations with distinct 32-bit addresses. -/
def heapDiffIp : Heap :=
  fun p => if p = 0 then destW 1 80 1 else destW 2 80 1

/-- Claim C4 (counterexample): destinations 0 and 1 of heapSameIp are
distinct destinations of one service, differing only in port, yet the
virtual-node identity strings generated for them are identical,
because the node identity is rendered from ntohl(dest.addr.ip) alone
and the port never enters the string. -/
theorem port_collision_identity_strings :
    heapSameIp 0 ≠ heapSameIp 1
    ∧ (heapSameIp 0).port ≠ (heapSameIp 1).port
    ∧ (heapSameIp 0).addr = (heapSameIp 1).addr
    ∧ nodeIdens (assignNode heapSameIp 0)
        = nodeIdens (assignNode heapSameIp 1) := by
  refine ⟨by decide, by decide, by decide, ?_⟩
  rfl

/-- Claim C4 (amended): the virtual-node identity strings generated
for a destination are a function of its 32-bit IP address field and a
distinct replica index; two destinations whose ntohl-ed IP fields
differ can never collide on an identity string, but destinations
agreeing on that field (for instance differing only in port) receive
identical identity strings. -/
theorem identity_strings_keyed_by_ip (heap : Heap) (d1 d2 : Nat)
    (hne : ntohl (heap d1).addr.ip ≠ ntohl (heap d2).addr.ip) :
    ∀ s ∈ nodeIdens (assignNode heap d1),
      s ∉ nodeIdens (assignNode heap d2) := by
  intro s hs1 hs2
  rw [mem_nodeIdens] at hs1 hs2
  obtain ⟨i, hi, rfl⟩ := hs1
  obtain ⟨j, hj, hEq⟩ := hs2
  have h1 : (assignNode heap d1).iden
      = natToStr (ntohl (heap d1).addr.ip) := rfl
  have h2 : (assignNode heap d2).iden
      = natToStr (ntohl (heap d2).addr.ip) := rfl
  rw [h1, h2] at hEq
  exact hne (vnodeIden_inj hEq).1

/-- Witness for the amended claim C4 at two concrete destinations with
distinct IP fields and one concrete identity string. -/
theorem identity_strings_keyed_by_ip_witness :
    vnodeIden (natToStr (ntohl 1)) 0
      ∉ nodeIdens (assignNode heapDiffIp 1) :=
  identity_strings_keyed_by_ip heapDiffIp 0 1 (by decide)
    (vnodeIden (natToStr (ntohl 1)) 0) (by decide)

/-- Claim C5: after any init or update, every virtual node of the Ring
belongs to a destination that was present in the destination list with
positive weight at rebuild time; a destination of non-positive weight
never has virtual nodes inserted. -/
theorem ring_only_positive_weight (hash : String → Nat)
    (alloc : Nat → Bool) (heap : Heap) (dests : List Nat)
    (tbl : ip_vs_ch_bucket) (hwf : WFBucket tbl) :
    (∀ t, (ip_vs_ch_init_svc hash true alloc heap dests).2.1 = some t →
      ∀ v ∈ t.conhash.ring,
        ∃ d ∈ dests, 0 < (heap d).weight ∧ v.owner.dest = some d)
    ∧ (∀ v ∈ (ip_vs_ch_update_svc hash alloc heap tbl
          dests).2.1.conhash.ring,
        ∃ d ∈ dests, 0 < (heap d).weight ∧ v.owner.dest = some d) := by
  constructor
  · intro t ht v hv
    simp only [ip_vs_ch_init_svc, if_pos, Option.some.injEq] at ht
    subst ht
    rcases assignGo_ring_mem hash alloc dests 0 heap _ v hv
      with h | ⟨d, hd, hwd, hdest⟩
    · simp [conhash_init] at h
    · exact ⟨d, hd, hwd, hdest⟩
  · intro v hv
    have hv2 : v ∈ ((assignGo hash alloc 0 (ip_vs_ch_flush heap tbl).1
        { (ip_vs_ch_flush heap tbl).2 with node_head := [] }
        dests).2.1).conhash.ring := hv
    rcases assignGo_ring_mem hash alloc dests 0
        (ip_vs_ch_flush heap tbl).1 _ v hv2
      with h | ⟨d, hd, hwd, hdest⟩
    · rw [show ({ (ip_vs_ch_flush heap tbl).2 with node_head := [] }
          : ip_vs_ch_bucket).conhash = (ip_vs_ch_flush heap tbl).2.conhash
          from rfl] at h
      rw [flush_ring_nil_of_WF heap tbl hwf] at h
      cases h
    · refine ⟨d, hd, ?_, hdest⟩
      rwa [show ((ip_vs_ch_flush heap tbl).1 d).weight = (heap d).weight
        from (flushLoop_heap_fields tbl.node_head heap
          tbl.conhash d).2.1] at hwd

/-- Witness for claim C5 at a concrete service. -/
theorem ring_only_positive_weight_witness :
    (∀ t, (ip_vs_ch_init_svc hash0 true allocAll heapOne [0]).2.1
        = some t →
      ∀ v ∈ t.conhash.ring,
        ∃ d ∈ [0], 0 < (heapOne d).weight ∧ v.owner.dest = some d)
    ∧ (∀ v ∈ (ip_vs_ch_update_svc hash0 allocAll heapOne emptyBucket
          [0]).2.1.conhash.ring,
        ∃ d ∈ [0], 0 < (heapOne d).weight ∧ v.owner.dest = some d) :=
  ring_only_positive_weight hash0 allocAll heapOne [0] emptyBucket
    WFBucket_emptyBucket

/-- Claim C6: scheduling is deterministic: two calls against the same
Ring content, the same count, the same destination states and the same
flow key return the same destination or both return none. -/
theorem schedule_deterministic (hash : String → Nat) (heap : Heap)
    (t1 t2 : ip_vs_ch_bucket) (s1 s2 : nf_inet_addr)
    (hring : t1.conhash = t2.conhash) (hcount : t1.count = t2.count)
    (hs : s1 = s2) :
    ip_vs_ch_schedule hash heap t1 s1
      = ip_vs_ch_schedule hash heap t2 s2 := by
  subst hs
  unfold ip_vs_ch_schedule
  rw [hcount]
  exact scheduleLoop_congr_tbl hash heap hring s1 t2.count 0

/-- A table with the same count and Ring as emptyBucket but different
bookkeeping, used to exhibit that scheduling reads only the Ring and
the count. -/
def tblBookkeeping : ip_vs_ch_bucket :=
  { count := 0, conhash := { ring := [] },
    node_head := [{ iden := "x", replica := 3, dest := none }] }

/-- Witness for claim C6 at two concrete tables of equal Ring content
and count. -/
theorem schedule_deterministic_witness :
    ip_vs_ch_schedule hash0 heapOne tblBookkeeping { ip := 0, rest := 0 }
      = ip_vs_ch_schedule hash0 heapOne emptyBucket
          { ip := 0, rest := 0 } :=
  schedule_deterministic hash0 heapOne tblBookkeeping emptyBucket
    { ip := 0, rest := 0 } { ip := 0, rest := 0 } rfl rfl rfl

theorem flush_heap_fields (heap : Heap) (tbl : ip_vs_ch_bucket) (p : Nat) :
    ((ip_vs_ch_flush heap tbl).1 p).addr = (heap p).addr
    ∧ ((ip_vs_ch_flush heap tbl).1 p).weight = (heap p).weight
    ∧ ((ip_vs_ch_flush heap tbl).1 p).available = (heap p).available
    ∧ ((ip_vs_ch_flush heap tbl).1 p).overloaded = (heap p).overloaded :=
  flushLoop_heap_fields tbl.node_head heap tbl.conhash p

theorem assign_heap_fields (hash : String → Nat) (alloc : Nat → Bool)
    (heap : Heap) (tbl : ip_vs_ch_bucket) (dests : List Nat) (p : Nat) :
    ((ip_vs_ch_assign hash alloc heap tbl dests).2.2 p).addr
        = (heap p).addr
    ∧ ((ip_vs_ch_assign hash alloc heap tbl dests).2.2 p).weight
        = (heap p).weight
    ∧ ((ip_vs_ch_assign hash alloc heap tbl dests).2.2 p).available
        = (heap p).available
    ∧ ((ip_vs_ch_assign hash alloc heap tbl dests).2.2 p).overloaded
        = (heap p).overloaded :=
  assignGo_heap_fields hash alloc dests 0 heap _ p

/-- Claim C7: updating a service whose destination set is empty or
holds only non-positive weights is safe: the rebuild yields count 0
and an empty Ring, and every subsequent scheduling call on the
resulting table returns none, whatever the destination states at that
later time. -/
theorem update_empty_dest_set (hash : String → Nat) (alloc : Nat → Bool)
    (heap : Heap) (tbl : ip_vs_ch_bucket) (dests : List Nat)
    (hwf : WFBucket tbl) (hw : ∀ d ∈ dests, (heap d).weight ≤ 0) :
    (ip_vs_ch_update_svc hash alloc heap tbl dests).2.1.count = 0
    ∧ (ip_vs_ch_update_svc hash alloc heap tbl dests).2.1.conhash.ring
        = []
    ∧ ∀ (heap2 : Heap) (saddr : nf_inet_addr),
        ip_vs_ch_schedule hash heap2
          (ip_vs_ch_update_svc hash alloc heap tbl dests).2.1 saddr
          = none := by
  have hkey : (ip_vs_ch_update_svc hash alloc heap tbl dests).2.1
      = emptyBucket := by
    show (ip_vs_ch_assign hash alloc (ip_vs_ch_flush heap tbl).1
      (ip_vs_ch_flush heap tbl).2 dests).2.1 = emptyBucket
    unfold ip_vs_ch_assign
    rw [assignGo_nonpos hash alloc dests 0 _ _ (fun d hd => by
      rw [(flush_heap_fields heap tbl d).2.1]
      exact hw d hd)]
    rw [flush_eq_empty_of_WF heap tbl hwf]
    rfl
  refine ⟨by rw [hkey]; rfl, by rw [hkey]; rfl, ?_⟩
  intro heap2 saddr
  rw [hkey]
  rfl

/-- A heap whose destinations all have weight zero. -/
def heapZeroW : Heap := fun _ => destW 4 80 0

/-- Witness for claim C7 at a concrete table and destination list. -/
theorem update_empty_dest_set_witness :
    (ip_vs_ch_update_svc hash0 allocAll heapZeroW emptyBucket
        [0]).2.1.count = 0
    ∧ (ip_vs_ch_update_svc hash0 allocAll heapZeroW emptyBucket
        [0]).2.1.conhash.ring = []
    ∧ ∀ (heap2 : Heap) (saddr : nf_inet_addr),
        ip_vs_ch_schedule hash0 heap2
          (ip_vs_ch_update_svc hash0 allocAll heapZeroW emptyBucket
            [0]).2.1 saddr = none :=
  update_empty_dest_set hash0 allocAll heapZeroW emptyBucket [0]
    WFBucket_emptyBucket (by decide)

/-- Claim C8: update is idempotent with respect to routing: running
update twice in a row from the same destination list, weights and
flags yields a table and destination states under which every flow key
schedules to the same destination as after the single update. -/
theorem update_idempotent_routing (hash : String → Nat)
    (alloc : Nat → Bool) (heap : Heap) (tbl : ip_vs_ch_bucket)
    (dests : List Nat) (hwf : WFBucket tbl) (saddr : nf_inet_addr) :
    ip_vs_ch_schedule hash
        (ip_vs_ch_update_svc hash alloc
          (ip_vs_ch_update_svc hash alloc heap tbl dests).2.2
          (ip_vs_ch_update_svc hash alloc heap tbl dests).2.1 dests).2.2
        (ip_vs_ch_update_svc hash alloc
          (ip_vs_ch_update_svc hash alloc heap tbl dests).2.2
          (ip_vs_ch_update_svc hash alloc heap tbl dests).2.1 dests).2.1
        saddr
      = ip_vs_ch_schedule hash
          (ip_vs_ch_update_svc hash alloc heap tbl dests).2.2
          (ip_vs_ch_update_svc hash alloc heap tbl dests).2.1 saddr := by
  have hfl1 : (ip_vs_ch_flush heap tbl).2 = emptyBucket :=
    flush_eq_empty_of_WF heap tbl hwf
  have hu1t : (ip_vs_ch_update_svc hash alloc heap tbl dests).2.1
      = (ip_vs_ch_assign hash alloc (ip_vs_ch_flush heap tbl).1
          emptyBucket dests).2.1 := by
    show (ip_vs_ch_assign hash alloc (ip_vs_ch_flush heap tbl).1
      (ip_vs_ch_flush heap tbl).2 dests).2.1 = _
    rw [hfl1]
  have hu1h : (ip_vs_ch_update_svc hash alloc heap tbl dests).2.2
      = (ip_vs_ch_assign hash alloc (ip_vs_ch_flush heap tbl).1
          emptyBucket dests).2.2 := by
    show (ip_vs_ch_assign hash alloc (ip_vs_ch_flush heap tbl).1
      (ip_vs_ch_flush heap tbl).2 dests).2.2 = _
    rw [hfl1]
  rw [hu1t, hu1h]
  set H1 : Heap := (ip_vs_ch_flush heap tbl).1 with hH1
  set A1t : ip_vs_ch_bucket :=
    (ip_vs_ch_assign hash alloc H1 emptyBucket dests).2.1 with hA1t
  set A1h : Heap :=
    (ip_vs_ch_assign hash alloc H1 emptyBucket dests).2.2 with hA1h
  have hWFempty : WFBucket
      ({ emptyBucket with node_head := [] } : ip_vs_ch_bucket) := by
    intro v hv
    simp [emptyBucket] at hv
  have hWFt1 : WFBucket A1t := by
    rw [hA1t]
    exact assignGo_WF hash alloc dests 0 H1 _ hWFempty
  have hfl2 : (ip_vs_ch_flush A1h A1t).2 = emptyBucket :=
    flush_eq_empty_of_WF A1h A1t hWFt1
  have hu2t : (ip_vs_ch_update_svc hash alloc A1h A1t dests).2.1
      = (ip_vs_ch_assign hash alloc (ip_vs_ch_flush A1h A1t).1
          emptyBucket dests).2.1 := by
    show (ip_vs_ch_assign hash alloc (ip_vs_ch_flush A1h A1t).1
      (ip_vs_ch_flush A1h A1t).2 dests).2.1 = _
    rw [hfl2]
  have hu2h : (ip_vs_ch_update_svc hash alloc A1h A1t dests).2.2
      = (ip_vs_ch_assign hash alloc (ip_vs_ch_flush A1h A1t).1
          emptyBucket dests).2.2 := by
    show (ip_vs_ch_assign hash alloc (ip_vs_ch_flush A1h A1t).1
      (ip_vs_ch_flush A1h A1t).2 dests).2.2 = _
    rw [hfl2]
  rw [hu2t, hu2h]
  have hagree : ∀ p,
      (((ip_vs_ch_flush A1h A1t).1) p).addr.ip = (H1 p).addr.ip
      ∧ (((ip_vs_ch_flush A1h A1t).1) p).weight = (H1 p).weight := by
    intro p
    constructor
    · rw [(flush_heap_fields A1h A1t p).1, hA1h,
        (assign_heap_fields hash alloc H1 emptyBucket dests p).1]
    · rw [(flush_heap_fields A1h A1t p).2.1, hA1h,
        (assign_heap_fields hash alloc H1 emptyBucket dests p).2.1]
  have htbl : (ip_vs_ch_assign hash alloc (ip_vs_ch_flush A1h A1t).1
      emptyBucket dests).2.1 = A1t := by
    rw [hA1t]
    exact (assignGo_congr hash alloc dests 0 _ H1 _ hagree).2
  rw [htbl]
  have hag2 : ∀ p,
      ((ip_vs_ch_assign hash alloc (ip_vs_ch_flush A1h A1t).1
          emptyBucket dests).2.2 p).available = (A1h p).available
      ∧ ((ip_vs_ch_assign hash alloc (ip_vs_ch_flush A1h A1t).1
          emptyBucket dests).2.2 p).weight = (A1h p).weight
      ∧ ((ip_vs_ch_assign hash alloc (ip_vs_ch_flush A1h A1t).1
          emptyBucket dests).2.2 p).overloaded = (A1h p).overloaded := by
    intro p
    refine ⟨?_, ?_, ?_⟩
    · rw [(assign_heap_fields hash alloc _ emptyBucket dests p).2.2.1,
        (flush_heap_fields A1h A1t p).2.2.1]
    · rw [(assign_heap_fields hash alloc _ emptyBucket dests p).2.1,
        (flush_heap_fields A1h A1t p).2.1]
    · rw [(assign_heap_fields hash alloc _ emptyBucket dests p).2.2.2,
        (flush_heap_fields A1h A1t p).2.2.2]
  unfold ip_vs_ch_schedule
  exact scheduleLoop_congr_heap hash A1t saddr hag2 A1t.count 0

/-- Witness for claim C8 at a concrete service. -/
theorem update_idempotent_routing_witness :
    ip_vs_ch_schedule hash0
        (ip_vs_ch_update_svc hash0 allocAll
          (ip_vs_ch_update_svc hash0 allocAll heapOne emptyBucket
            [0]).2.2
          (ip_vs_ch_update_svc hash0 allocAll heapOne emptyBucket
            [0]).2.1 [0]).2.2
        (ip_vs_ch_update_svc hash0 allocAll
          (ip_vs_ch_update_svc hash0 allocAll heapOne emptyBucket
            [0]).2.2
          (ip_vs_ch_update_svc hash0 allocAll heapOne emptyBucket
            [0]).2.1 [0]).2.1
        { ip := 3, rest := 0 }
      = ip_vs_ch_schedule hash0
          (ip_vs_ch_update_svc hash0 allocAll heapOne emptyBucket
            [0]).2.2
          (ip_vs_ch_update_svc hash0 allocAll heapOne emptyBucket
            [0]).2.1 { ip := 3, rest := 0 } :=
  update_idempotent_routing hash0 allocAll heapOne emptyBucket [0]
    WFBucket_emptyBucket { ip := 3, rest := 0 }


/-- Claim C9: reference-count balance: assign increments the refcnt of
each destination by exactly one per node entry created for it (one
entry per positive-weight destination); flush decrements the refcnt of
each entry destination by exactly one, clears the entry list and
leaves count 0; and an init followed by done restores every refcnt to
its original value.  In the embedding the scheduler is a pure function
of the heap and therefore never writes a refcnt. -/
theorem refcnt_balance (hash : String → Nat) (alloc : Nat → Bool)
    (heap : Heap) (tbl : ip_vs_ch_bucket) (dests : List Nat) (p : Nat) :
    (((ip_vs_ch_assign hash alloc heap tbl dests).2.2 p).refcnt
        = (heap p).refcnt
          + (((ip_vs_ch_assign hash alloc heap tbl
              dests).2.1.node_head.countP
              (fun n => n.dest == some p) : Nat) : Int))
    ∧ (((ip_vs_ch_flush heap tbl).1 p).refcnt
        = (heap p).refcnt
          - ((tbl.node_head.countP (fun n => n.dest == some p) : Nat)
              : Int))
    ∧ (ip_vs_ch_flush heap tbl).2.count = 0
    ∧ (ip_vs_ch_flush heap tbl).2.node_head = []
    ∧ ((ip_vs_ch_init_svc hash true alloc heap dests).2.1.map
        (fun t => ((ip_vs_ch_done_svc
            (ip_vs_ch_init_svc hash true alloc heap dests).2.2 t).2
              p).refcnt))
      = some ((heap p).refcnt) := by
  refine ⟨?_, ?_, rfl, rfl, ?_⟩
  · unfold ip_vs_ch_assign
    rw [assignGo_heap, assignGo_node_head]
    simp
  · show ((flushLoop heap tbl.conhash tbl.node_head).1 p).refcnt = _
    rw [flushLoop_heap]
  · simp only [ip_vs_ch_init_svc, if_pos, Option.map]
    congr 1
    have h1 : ∀ (ah : Heap) (at2 : ip_vs_ch_bucket),
        ((ip_vs_ch_flush ah at2).1 p).refcnt
          = (ah p).refcnt
            - ((at2.node_head.countP (fun n => n.dest == some p) : Nat)
                : Int) := by
      intro ah at2
      show ((flushLoop ah at2.conhash at2.node_head).1 p).refcnt = _
      rw [flushLoop_heap]
    show ((ip_vs_ch_flush
        (ip_vs_ch_assign hash alloc heap
          { count := 0, conhash := conhash_init, node_head := [] }
          dests).2.2
        (ip_vs_ch_assign hash alloc heap
          { count := 0, conhash := conhash_init, node_head := [] }
          dests).2.1).1 p).refcnt = (heap p).refcnt
    rw [h1]
    unfold ip_vs_ch_assign
    rw [assignGo_heap, assignGo_node_head]
    simp

/-- Claim C10: the lookup key that scheduling hashes is built only
from the 32-bit ip field of the source address together with the
retry index, and node identities are built only from the 32-bit ip
field of the destination address: packets agreeing on the source ip
field schedule identically under identical table state, and heaps
agreeing on destination ip fields and weights produce identical
assign results. -/
theorem schedule_keyed_by_ip32 (hash : String → Nat)
    (alloc : Nat → Bool) (heap h1 h2 : Heap) (tbl : ip_vs_ch_bucket)
    (dests : List Nat) (s1 s2 : nf_inet_addr) (hip : s1.ip = s2.ip)
    (hagree : ∀ p, (h1 p).addr.ip = (h2 p).addr.ip
      ∧ (h1 p).weight = (h2 p).weight) :
    ip_vs_ch_schedule hash heap tbl s1
        = ip_vs_ch_schedule hash heap tbl s2
    ∧ (ip_vs_ch_assign hash alloc h1 tbl dests).1
        = (ip_vs_ch_assign hash alloc h2 tbl dests).1
    ∧ (ip_vs_ch_assign hash alloc h1 tbl dests).2.1
        = (ip_vs_ch_assign hash alloc h2 tbl dests).2.1 := by
  refine ⟨?_, ?_, ?_⟩
  · unfold ip_vs_ch_schedule
    exact scheduleLoop_congr_saddr hash heap tbl hip tbl.count 0
  · unfold ip_vs_ch_assign
    exact (assignGo_congr hash alloc dests 0 h1 h2 _ hagree).1
  · unfold ip_vs_ch_assign
    exact (assignGo_congr hash alloc dests 0 h1 h2 _ hagree).2

/-- A heap of destinations at ip 9, port 80. -/
def heapPortA : Heap := fun _ => destW 9 80 1

/-- A heap of destinations at ip 9, port 81: same ip and weight as
heapPortA, different port. -/
def heapPortB : Heap := fun _ => destW 9 81 1

/-- Witness for claim C10: packets differing beyond the first 32
address bits, and heaps differing only in port. -/
theorem schedule_keyed_by_ip32_witness :
    ip_vs_ch_schedule hash0 heapOne emptyBucket { ip := 7, rest := 1 }
        = ip_vs_ch_schedule hash0 heapOne emptyBucket
            { ip := 7, rest := 2 }
    ∧ (ip_vs_ch_assign hash0 allocAll heapPortA emptyBucket [0]).1
        = (ip_vs_ch_assign hash0 allocAll heapPortB emptyBucket [0]).1
    ∧ (ip_vs_ch_assign hash0 allocAll heapPortA emptyBucket [0]).2.1
        = (ip_vs_ch_assign hash0 allocAll heapPortB emptyBucket
            [0]).2.1 :=
  schedule_keyed_by_ip32 hash0 allocAll heapOne heapPortA heapPortB
    emptyBucket [0] { ip := 7, rest := 1 } { ip := 7, rest := 2 } rfl
    (fun _ => ⟨rfl, rfl⟩)
